import Mathlib

/-!
Verification of the Google Scholar alert-email extraction pipeline
(`google_scholar/fetch_emails.py` and `google_scholar/scholar_api.py`).

The development shallowly embeds the parsed-HTML data model and the pure
extraction logic of the source: `clean_text`, `get_md5`, the category
resolver, the per-heading sibling walk, author splitting, summary
composition, record assembly in `parse_scholar_email`, the JSONL
persistence step of `fetch_emails`, and the dictionary-mutating
`enhance_paper_with_scholar`.  Strings are modelled by Lean `String`
(Python `str` is a sequence of Unicode code points, as is `String.data`);
machine-level hashing state is modelled by `Nat` reduced mod `2 ^ 32`.
-/

namespace Scholar

/-! ## Text normalisation (`clean_text`, Python `str.strip` / `str.split`)

Python's `re.sub(r'\s+', ' ', text).strip()` collapses every maximal run
of Unicode whitespace to a single space and trims both ends.  `wsCodes`
lists the code points Python treats as whitespace (`str.isspace`). -/

def wsCodes : List Nat :=
  [9, 10, 11, 12, 13, 28, 29, 30, 31, 32, 0x85, 0xa0, 0x1680,
   0x2000, 0x2001, 0x2002, 0x2003, 0x2004, 0x2005, 0x2006, 0x2007,
   0x2008, 0x2009, 0x200a, 0x2028, 0x2029, 0x202f, 0x205f, 0x3000]

def wsChar (c : Char) : Bool :=
  wsCodes.contains c.toNat

/-- One pass of `re.sub(r'\s+', ' ', ·)`: every maximal whitespace run
becomes a single `' '`.  `prevSpace` records whether the previous
character belonged to a whitespace run. -/
def collapseAux (prevSpace : Bool) : List Char → List Char
  | [] => []
  | c :: rest =>
    if wsChar c then
      (if prevSpace then [] else [' ']) ++ collapseAux true rest
    else c :: collapseAux false rest

/-- Remove trailing whitespace (the right half of Python `str.strip`). -/
def dropEndWS : List Char → List Char
  | [] => []
  | c :: rest =>
    match dropEndWS rest with
    | [] => if wsChar c then [] else [c]
    | r => c :: r

/-- Python `str.strip`: drop leading then trailing whitespace. -/
def stripL (l : List Char) : List Char :=
  dropEndWS (l.dropWhile wsChar)

/-- Python `str.strip` at `String` level. -/
def pyStrip (s : String) : String :=
  ⟨stripL s.data⟩

/-- `clean_text` (fetch_emails.py lines 29-33): empty input yields `""`,
otherwise collapse whitespace runs and strip. -/
def cleanText (s : String) : String :=
  if s = "" then ""
  else ⟨stripL (collapseAux false s.data)⟩

/-- Python `str.split(sep)` for a one-character separator: split at every
occurrence, keeping empty pieces. -/
def pySplitChar (sep : Char) : List Char → List (List Char)
  | [] => [[]]
  | c :: rest =>
    if c = sep then [] :: pySplitChar sep rest
    else
      match pySplitChar sep rest with
      | [] => [[c]]
      | h :: t => (c :: h) :: t

/-! ## Parsed-document model (BeautifulSoup trees)

A parsed node is either a tag element with attributes and children, or a
bare text node (`NavigableString`, whose `.name` is `None`). -/

inductive Node where
  | element (tag : String) (attrs : List (String × String)) (children : List Node)
  | text (s : String)

def childrenOf : Node → List Node
  | .element _ _ cs => cs
  | .text _ => []

mutual

/-- `get_text()` of a single node (`str(curr)` for a text node). -/
def getTextN : Node → String
  | .text s => s
  | .element _ _ cs => getTextL cs

/-- `get_text()` over a child list: concatenation of every string in the
subtree, in document order. -/
def getTextL : List Node → String
  | [] => ""
  | c :: rest => getTextN c ++ getTextL rest

end

mutual

/-- `find_all(tag)` on one node: matching descendants, itself included. -/
def findAllN (tag : String) : Node → List Node
  | .text _ => []
  | .element t a cs =>
    (if t = tag then [Node.element t a cs] else []) ++ findAllAux tag cs

/-- `find_all(tag)` over a child list: all descendant elements with the
given tag, in document (pre-)order. -/
def findAllAux (tag : String) : List Node → List Node
  | [] => []
  | c :: rest => findAllN tag c ++ findAllAux tag rest

end

/-- `node.find(tag)`: first matching descendant. -/
def findFirst (tag : String) (n : Node) : Option Node :=
  (findAllAux tag (childrenOf n)).head?

/-- `tag.get(key)`: attribute lookup, `None` when absent. -/
def attrGet (n : Node) (key : String) : Option String :=
  match n with
  | .element _ attrs _ => (attrs.find? (fun p => p.1 = key)).map (·.2)
  | .text _ => none

/-- Python's substring test `needle in hay`. -/
def hasSubstr (needle : List Char) : List Char → Bool
  | [] => needle.isPrefixOf []
  | c :: t => needle.isPrefixOf (c :: t) || hasSubstr needle t

/-! ## Category resolver (fetch_emails.py lines 42-63) -/

/-- The localized footer marker announcing the alert's search term. -/
def targetText : String := "Google 学术搜索发送此邮件，是因为您关注了"

/-- Does the paragraph's visible text contain the marker phrase? -/
def markerIn (p : Node) : Bool :=
  hasSubstr targetText.data (getTextN p).data

/-- Lines 55-58: normalise the first link's text and strip one outer
bracket pair (`cat_text[1:-1].strip()`) when present. -/
def catTextOf (a : Node) : String :=
  let catText := cleanText (getTextN a)
  if catText.data.head? = some '[' ∧ catText.data.getLast? = some ']' then
    pyStrip ⟨(catText.data.drop 1).dropLast⟩
  else catText

/-- The `for p in soup.find_all('p')` loop (lines 49-63): the loop `break`s
only after assigning a non-empty category; otherwise it keeps scanning. -/
def categoryLoop : List Node → String
  | [] => "Google Scholar"
  | p :: rest =>
    if markerIn p then
      match findFirst "a" p with
      | some a =>
        let cat := catTextOf a
        if cat ≠ "" then cat else categoryLoop rest
      | none => categoryLoop rest
    else categoryLoop rest

/-- Category of a whole document, default `"Google Scholar"`. -/
def resolveCategory (doc : Node) : String :=
  categoryLoop (findAllAux "p" (childrenOf doc))

/-! ## `get_md5` (fetch_emails.py lines 26-27)

`hashlib.md5(text.encode('utf-8')).hexdigest()`.  The MD5 algorithm
(RFC 1321) is embedded over `Nat` with all word arithmetic reduced
mod `2 ^ 32`; `utf8Encode` is Python's `str.encode('utf-8')`. -/

def utf8EncodeChar (c : Char) : List Nat :=
  let n := c.toNat
  if n < 0x80 then [n]
  else if n < 0x800 then [0xc0 + n / 64, 0x80 + n % 64]
  else if n < 0x10000 then
    [0xe0 + n / 4096, 0x80 + n / 64 % 64, 0x80 + n % 64]
  else
    [0xf0 + n / 0x40000, 0x80 + n / 4096 % 64, 0x80 + n / 64 % 64, 0x80 + n % 64]

def utf8Encode (s : String) : List Nat :=
  s.data.flatMap utf8EncodeChar

def mask32 : Nat := 0xffffffff

/-- Left-rotation of a 32-bit word. -/
def rotl32 (x s : Nat) : Nat :=
  (x * 2 ^ s) % 2 ^ 32 ||| x / 2 ^ (32 - s)

/-- RFC 1321 sine-derived constants `K[0..63]`. -/
def md5K : List Nat :=
  [0xd76aa478, 0xe8c7b756, 0x242070db, 0xc1bdceee,
   0xf57c0faf, 0x4787c62a, 0xa8304613, 0xfd469501,
   0x698098d8, 0x8b44f7af, 0xffff5bb1, 0x895cd7be,
   0x6b901122, 0xfd987193, 0xa679438e, 0x49b40821,
   0xf61e2562, 0xc040b340, 0x265e5a51, 0xe9b6c7aa,
   0xd62f105d, 0x02441453, 0xd8a1e681, 0xe7d3fbc8,
   0x21e1cde6, 0xc33707d6, 0xf4d50d87, 0x455a14ed,
   0xa9e3e905, 0xfcefa3f8, 0x676f02d9, 0x8d2a4c8a,
   0xfffa3942, 0x8771f681, 0x6d9d6122, 0xfde5380c,
   0xa4beea44, 0x4bdecfa9, 0xf6bb4b60, 0xbebfbc70,
   0x289b7ec6, 0xeaa127fa, 0xd4ef3085, 0x04881d05,
   0xd9d4d039, 0xe6db99e5, 0x1fa27cf8, 0xc4ac5665,
   0xf4292244, 0x432aff97, 0xab9423a7, 0xfc93a039,
   0x655b59c3, 0x8f0ccc92, 0xffeff47d, 0x85845dd1,
   0x6fa87e4f, 0xfe2ce6e0, 0xa3014314, 0x4e0811a1,
   0xf7537e82, 0xbd3af235, 0x2ad7d2bb, 0xeb86d391]

/-- RFC 1321 per-round shift amounts `s[0..63]`. -/
def md5S : List Nat :=
  [7, 12, 17, 22, 7, 12, 17, 22, 7, 12, 17, 22, 7, 12, 17, 22,
   5, 9, 14, 20, 5, 9, 14, 20, 5, 9, 14, 20, 5, 9, 14, 20,
   4, 11, 16, 23, 4, 11, 16, 23, 4, 11, 16, 23, 4, 11, 16, 23,
   6, 10, 15, 21, 6, 10, 15, 21, 6, 10, 15, 21, 6, 10, 15, 21]

/-- Message padding: `0x80`, zeros until the length is 56 mod 64, then
the bit length in 8 little-endian bytes.  The zero count solves
`len + 1 + zeros ≡ 56 (mod 64)`; it is written as
`(55 + 64 - len % 64) % 64` so the subtraction never truncates over
`Nat`. -/
def md5Pad (msg : List Nat) : List Nat :=
  let bitLen := (8 * msg.length) % 2 ^ 64
  let lenBytes := (List.range 8).map fun i => bitLen / 2 ^ (8 * i) % 256
  msg ++ 0x80 :: List.replicate ((55 + 64 - msg.length % 64) % 64) 0 ++ lenBytes

/-- One MD5 round `i` on state `(A, B, C, D)` with message words `M`. -/
def md5Round (M : Nat → Nat) (st : Nat × Nat × Nat × Nat) (i : Nat) :
    Nat × Nat × Nat × Nat :=
  let (A, B, C, D) := st
  let fg : Nat × Nat :=
    if i < 16 then ((B &&& C) ||| ((mask32 ^^^ B) &&& D), i)
    else if i < 32 then ((D &&& B) ||| ((mask32 ^^^ D) &&& C), (5 * i + 1) % 16)
    else if i < 48 then (B ^^^ C ^^^ D, (3 * i + 5) % 16)
    else (C ^^^ (B ||| (mask32 ^^^ D)), (7 * i) % 16)
  let f := (fg.1 + A + md5K.getD i 0 + M fg.2) % 2 ^ 32
  (D, (B + rotl32 f (md5S.getD i 0)) % 2 ^ 32, B, C)

/-- Process one 64-byte block. -/
def md5Block (st : Nat × Nat × Nat × Nat) (block : List Nat) :
    Nat × Nat × Nat × Nat :=
  let M := fun g => block.getD (4 * g) 0 + 256 * block.getD (4 * g + 1) 0
    + 65536 * block.getD (4 * g + 2) 0 + 16777216 * block.getD (4 * g + 3) 0
  let r := (List.range 64).foldl (md5Round M) st
  ((st.1 + r.1) % 2 ^ 32, (st.2.1 + r.2.1) % 2 ^ 32,
   (st.2.2.1 + r.2.2.1) % 2 ^ 32, (st.2.2.2 + r.2.2.2) % 2 ^ 32)

/-- Feed one byte into the block buffer, flushing every 64 bytes. -/
def md5Feed (acc : List Nat × (Nat × Nat × Nat × Nat)) (b : Nat) :
    List Nat × (Nat × Nat × Nat × Nat) :=
  let buf := acc.1 ++ [b]
  if buf.length = 64 then ([], md5Block acc.2 buf) else (buf, acc.2)

/-- Digest state after processing the whole padded message (its length
is a multiple of 64, so the buffer drains completely). -/
def md5Words (msg : List Nat) : Nat × Nat × Nat × Nat :=
  ((md5Pad msg).foldl md5Feed
    ([], (0x67452301, 0xefcdab89, 0x98badcfe, 0x10325476))).2

/-- Serialise a 32-bit word to 4 little-endian bytes. -/
def le4 (x : Nat) : List Nat :=
  [x % 256, x / 256 % 256, x / 65536 % 256, x / 16777216 % 256]

/-- 16-byte MD5 digest of a byte sequence. -/
def md5Bytes (msg : List Nat) : List Nat :=
  let w := md5Words msg
  le4 w.1 ++ le4 w.2.1 ++ le4 w.2.2.1 ++ le4 w.2.2.2

def hexChars : List Char :=
  "0123456789abcdef".data

def hexLower (n : Nat) : Char :=
  hexChars.getD n '0'

/-- Lowercase hex rendering of a byte sequence (`hexdigest()`). -/
def hexOfBytes (bs : List Nat) : String :=
  ⟨(bs.map fun b => [hexLower (b / 16 % 16), hexLower (b % 16)]).flatten⟩

/-- `get_md5` (fetch_emails.py lines 26-27). -/
def getMd5 (text : String) : String :=
  hexOfBytes (md5Bytes (utf8Encode text))

/-- The embedded MD5 reproduces the RFC 1321 appendix A.5 test vectors,
including the 62- and 80-byte ones whose padding crosses the 56-byte
boundary inside a block, and an input of exactly 56 bytes. -/
theorem getMd5_rfc1321_vectors :
    getMd5 "" = "d41d8cd98f00b204e9800998ecf8427e"
    ∧ getMd5 "abc" = "900150983cd24fb0d6963f7d28e17f72"
    ∧ getMd5 "message digest" = "f96b697d7cb7938d525a2f31aaf161d0"
    ∧ getMd5 "ABCDEFGHIJKLMNOPQRSTUVWXYZabcdefghijklmnopqrstuvwxyz0123456789"
        = "d174ab98d277d9f5a5611c2c9f419d9f"
    ∧ getMd5 "12345678901234567890123456789012345678901234567890123456789012345678901234567890"
        = "57edf4a22be3c955ac49da2e2107b67a"
    ∧ getMd5 ⟨List.replicate 56 'a'⟩ = "3b0c8ac703f828b04c6c197006d17218" := by
  set_option maxRecDepth 40000 in decide

/-! ## Record extraction (`parse_scholar_email`, lines 68-150) -/

/-- The paper record assembled at fetch_emails.py lines 138-148.  `pdf`
and `abs` are `a_tag.get('href')`, which is `None` when the link has no
`href` attribute, hence `Option String`. -/
structure Paper where
  id : String
  title : String
  authors : List String
  summary : String
  categories : List String
  pdf : Option String
  abs : Option String
  comment : String
  source : String
deriving DecidableEq

/-- The sibling walk of lines 90-114: starting from the nodes after the
heading, fill the authors/venue slot, then accept a `div` longer than 20
characters as the abstract (breaking), and stop at an `h3` or `hr`
boundary.  Returns `(authors_text, abstract_text)`. -/
def walkSiblings : List Node → String → String × String
  | [], authorsText => (authorsText, "")
  | curr :: rest, authorsText =>
    match curr with
    | .element "div" a cs =>
      let txt := cleanText (getTextN (.element "div" a cs))
      if authorsText = "" then walkSiblings rest txt
      else if txt ≠ "" ∧ txt.length > 20 then (authorsText, txt)
      else walkSiblings rest authorsText
    | .text s =>
      let txt := cleanText s
      if txt ≠ "" ∧ authorsText = "" then walkSiblings rest txt
      else walkSiblings rest authorsText
    | .element t _ _ =>
      if t = "h3" ∨ t = "hr" then (authorsText, "")
      else walkSiblings rest authorsText

/-- Author-list recovery of lines 118-122: take the part before the first
hyphen (stripped) when a hyphen occurs, split on commas, strip each
segment and keep the non-empty ones. -/
def authorList (authorsText : String) : List String :=
  let authorsClean :=
    if '-' ∈ authorsText.data then
      pyStrip ⟨(pySplitChar '-' authorsText.data).headD []⟩
    else authorsText
  ((pySplitChar ',' authorsClean.data).map fun seg => pyStrip ⟨seg⟩).filter
    (fun a => a ≠ "")

/-- Summary composition of lines 129-136: missing abstract becomes the
placeholder, and any summary shorter than 50 characters is wrapped in a
three-line block embedding title and authors. -/
def composeSummary (title : String) (authors : List String)
    (abstractText : String) : String :=
  let summaryContent :=
    if abstractText ≠ "" then abstractText else "Abstract not available."
  if summaryContent.length < 50 then
    "Title: " ++ title ++ "\nAuthors: " ++ String.intercalate ", " authors
      ++ "\nAbstract: " ++ summaryContent
  else summaryContent

/-- Per-heading record assembly (lines 68-148): skip the heading when it
has no link, otherwise build the full record from the link and the
sibling walk. -/
def recordOfH3 (category : String) (h3 : Node) (sibs : List Node) :
    Option Paper :=
  match findFirst "a" h3 with
  | none => none
  | some aTag =>
    let title := cleanText (getTextN aTag)
    let url := attrGet aTag "href"
    let walked := walkSiblings sibs ""
    let authors := authorList walked.1
    let paperId := "scholar_" ++ getMd5 (title ++ String.join authors)
    let finalSummary := composeSummary title authors walked.2
    some
      { id := paperId
        title := title
        authors := authors
        summary := finalSummary
        categories := [category]
        pdf := url
        abs := url
        comment := "From Google Scholar Alert"
        source := "Google Scholar" }

mutual

/-- Headings inside one node, each paired with its following siblings. -/
def findH3sN : Node → List (Node × List Node)
  | .text _ => []
  | .element _ _ cs => findH3sAux cs

/-- Body of the heading scan: a matching `h3` child is paired with its
following siblings, and its own subtree is scanned as well. -/
def findH3sAux : List Node → List (Node × List Node)
  | [] => []
  | c :: rest =>
    (match c with
     | .element "h3" a cs => [(Node.element "h3" a cs, rest)]
     | _ => []) ++ findH3sN c ++ findH3sAux rest

end

/-- `parse_scholar_email` (lines 35-150): resolve the document category
once, then build one record per linked heading, in document order. -/
def parseScholarEmail (doc : Node) : List Paper :=
  let category := resolveCategory doc
  (findH3sAux (childrenOf doc)).filterMap fun pr =>
    recordOfH3 category pr.1 pr.2

/-! ## Persistence (`fetch_emails`, lines 274-290)

`json.dumps(paper, ensure_ascii=False)` followed by `'\n'`, appended to
the sink file, with one separating newline first when the existing file
is non-empty and does not already end in a newline.  The file content is
modelled as a `String` of code points; the last byte of the UTF-8 file
is `0x0A` exactly when the last code point is `'\n'` (continuation bytes
of a multi-byte character are `≥ 0x80`). -/

def jsonEscapeChar (c : Char) : List Char :=
  if c = '"' then ['\\', '"']
  else if c = '\\' then ['\\', '\\']
  else if c = '\x08' then ['\\', 'b']
  else if c = '\x0c' then ['\\', 'f']
  else if c = '\n' then ['\\', 'n']
  else if c = '\r' then ['\\', 'r']
  else if c = '\t' then ['\\', 't']
  else if c.toNat < 32 then
    ['\\', 'u', '0', '0', hexLower (c.toNat / 16), hexLower (c.toNat % 16)]
  else [c]

/-- A JSON string literal with Python's `ensure_ascii=False` escaping. -/
def jsonStrData (s : String) : List Char :=
  '"' :: s.data.flatMap jsonEscapeChar ++ ['"']

/-- A JSON array of strings, with `json.dumps`'s default `', '` item
separator. -/
def jsonListData (xs : List String) : List Char :=
  '[' :: List.intercalate [',', ' '] (xs.map jsonStrData) ++ [']']

/-- `None` serialises to `null`. -/
def jsonOptData : Option String → List Char
  | none => ['n', 'u', 'l', 'l']
  | some s => jsonStrData s

def jsonPair (key : String) (v : List Char) : List Char :=
  jsonStrData key ++ ':' :: ' ' :: v

/-- `json.dumps` of one paper record, fields in insertion order
(fetch_emails.py lines 138-148). -/
def serializePaper (p : Paper) : String :=
  ⟨'\x7b' ::
    List.intercalate [',', ' ']
     [jsonPair "id" (jsonStrData p.id),
      jsonPair "title" (jsonStrData p.title),
      jsonPair "authors" (jsonListData p.authors),
      jsonPair "summary" (jsonStrData p.summary),
      jsonPair "categories" (jsonListData p.categories),
      jsonPair "pdf" (jsonOptData p.pdf),
      jsonPair "abs" (jsonOptData p.abs),
      jsonPair "comment" (jsonStrData p.comment),
      jsonPair "source" (jsonStrData p.source)]
    ++ ['\x7d']⟩

/-- Lines 275-284: a separating newline is needed exactly when the file
exists, is non-empty (the `f.seek(-1, 2)` on an empty file raises
`OSError`, leaving the flag `False`) and its last byte is not `'\n'`.
A nonexistent file behaves like the empty string. -/
def startNewline (existing : String) : Bool :=
  match existing.data.getLast? with
  | some c => c ≠ '\n'
  | none => false

/-- Lines 286-290: the sink's content after the append. -/
def appendRecords (existing : String) (papers : List Paper) : String :=
  existing ++ (if startNewline existing then "\n" else "")
    ++ String.join (papers.map fun p => serializePaper p ++ "\n")

/-! ## Enrichment (`scholar_api.enhance_paper_with_scholar`, lines 11-93)

The paper travels through this step as a Python `dict`; the step may
update existing keys in place and append new keys.  The dict is
modelled as an insertion-ordered association list.  The SerpApi call is
modelled by its observable outcome: `none` for an error response, a
raised exception or a missing result list, `some ms` for the
`organic_results` list, whose entries carry the optional fields read by
the code. -/

inductive JVal where
  | str (v : String)
  | bool (v : Bool)
  | list (v : List String)
  | null
deriving DecidableEq

abbrev PDict := List (String × JVal)

/-- Python `d[k]` lookup (first binding; dict keys are unique). -/
def dictGet (k : String) : PDict → Option JVal
  | [] => none
  | (k₁, v₁) :: rest => if k₁ = k then some v₁ else dictGet k rest

/-- Python `d[k] = v`: replace in place, or append a new binding. -/
def dictSet (k : String) (v : JVal) : PDict → PDict
  | [] => [(k, v)]
  | (k₁, v₁) :: rest =>
    if k₁ = k then (k₁, v) :: rest else (k₁, v₁) :: dictSet k v rest

/-- `d.get(k, "")` where the code treats the value as a string. -/
def dictGetStr (k : String) (d : PDict) : String :=
  match dictGet k d with
  | some (.str v) => v
  | _ => ""

/-- One `organic_results` entry: the fields read via `.get(key, "")`
(`publication_info` is a nested dict read as
`.get("publication_info", {}).get("summary", "")`). -/
structure ScholarMatch where
  snippet : Option String
  pubSummary : Option String
  resultId : Option String
  link : Option String

/-- `enhance_paper_with_scholar` (scholar_api.py lines 11-93). -/
def enhancePaper (apiKey : Option String)
    (response : Option (List ScholarMatch)) (paper : PDict) : PDict :=
  match apiKey with
  | none => paper
  | some _ =>
    let title := dictGetStr "title" paper
    if title = "" then paper
    else
      match response with
      | none => paper
      | some [] => paper
      | some (best :: _) =>
        let newSnippet := best.snippet.getD ""
        let pubInfo := best.pubSummary.getD ""
        let link := best.link.getD ""
        let currentSummary := dictGetStr "summary" paper
        let paper :=
          if hasSubstr "Abstract not available".data currentSummary.data
              ∨ currentSummary.length < newSnippet.length then
            dictSet "summary" (.str newSnippet) paper
          else paper
        let paper :=
          if pubInfo ≠ "" then
            let currentComment := dictGetStr "comment" paper
            if currentComment ≠ "" then
              dictSet "comment" (.str (currentComment ++ " | " ++ pubInfo)) paper
            else dictSet "comment" (.str pubInfo) paper
          else paper
        let paper := if link ≠ "" then dictSet "url" (.str link) paper else paper
        dictSet "scholar_enhanced" (.bool true) paper

/-! ## Concrete documents used by the scenario claims -/

/-- An 80-character abstract candidate. -/
def abstractA : String :=
  "Neural networks could transform perception, language understanding, and control."

/-- Scenario A: one linked heading, an authors/venue block, an
80-character abstract block. -/
def docA : Node :=
  .element "[document]" []
    [.element "h3" []
      [.element "a" [("href", "https://scholar.google.com/scholar_url?url=x")]
        [.text "Deep Learning Survey"]],
     .element "div" [] [.text "J. Smith, A. Lee - Journal of AI, 2024 - Elsevier"],
     .element "div" [] [.text abstractA]]

/-- A document whose first marker-containing paragraph has no hyperlink,
followed by a second marker-containing paragraph with a linked term. -/
def docC3 : Node :=
  .element "[document]" []
    [.element "p" []
      [.text ("Google 学术搜索发送此邮件，是因为您关注了 something")],
     .element "p" []
      [.text "Google 学术搜索发送此邮件，是因为您关注了 ",
       .element "a" [] [.text "machine learning"]]]

/-- A document with one linked heading and the localized footer whose
linked term is the bracketed `"[cost model]"`. -/
def docC7 : Node :=
  .element "[document]" []
    [.element "h3" [] [.element "a" [("href", "u")] [.text "T"]],
     .element "p" []
      [.text "Google 学术搜索发送此邮件，是因为您关注了 ",
       .element "a" [] [.text "[cost model]"]]]

/-! ## Claim theorems -/

/-- C1: a document with one heading whose link text is
`"Deep Learning Survey"`, a following block
`"J. Smith, A. Lee - Journal of AI, 2024 - Elsevier"` and a following
block holding 80 characters of abstract text yields exactly one record,
with that title, authors `["J. Smith", "A. Lee"]` and the 80-character
abstract verbatim as summary. -/
theorem claim1_scenario_a :
    (parseScholarEmail docA).map (fun p => (p.title, p.authors, p.summary)) =
      [("Deep Learning Survey", ["J. Smith", "A. Lee"], abstractA)]
    ∧ abstractA.length = 80 := by
  set_option maxRecDepth 20000 in decide

/-- C2 counterexample: with the abstract candidate absent, the composed
summary is not the bare literal `"Abstract not available"`; the code
embeds the placeholder (with a trailing period) in the three-line
title/authors block. -/
theorem claim2_counterexample :
    composeSummary "Deep Learning Survey" ["J. Smith", "A. Lee"] ""
      ≠ "Abstract not available" := by
  decide

/-- C2 amended: when the abstract candidate is absent the summary is the
three-line block embedding the title, the comma-joined authors and the
placeholder `"Abstract not available."`; when present and shorter than
50 characters it is the three-line block embedding the abstract; when
present with length 50 or more it is the abstract verbatim. -/
theorem claim2_amended (title : String) (authors : List String)
    (abstractText : String) :
    (abstractText = "" →
      composeSummary title authors abstractText =
        "Title: " ++ title ++ "\nAuthors: " ++ String.intercalate ", " authors
          ++ "\nAbstract: " ++ "Abstract not available.")
    ∧ (abstractText ≠ "" → abstractText.length < 50 →
      composeSummary title authors abstractText =
        "Title: " ++ title ++ "\nAuthors: " ++ String.intercalate ", " authors
          ++ "\nAbstract: " ++ abstractText)
    ∧ (abstractText ≠ "" → 50 ≤ abstractText.length →
      composeSummary title authors abstractText = abstractText) := by
  refine ⟨fun h0 => ?_, fun h1 h2 => ?_, fun h1 h2 => ?_⟩
  · subst h0
    simp [composeSummary]
    intro h
    exact absurd h (by decide)
  · simp only [composeSummary, if_pos h1]
    rw [if_pos h2]
  · simp only [composeSummary, if_pos h1]
    rw [if_neg (not_lt.mpr h2)]

/-- C2 witness: a present abstract of exactly 50 characters passes
through verbatim. -/
theorem claim2_witness :
    composeSummary "T" ["A"] "01234567890123456789012345678901234567890123456789"
      = "01234567890123456789012345678901234567890123456789" :=
  (claim2_amended "T" ["A"] _).2.2 (by decide) (by decide)

/-- A block container whose normalised text has exactly 20 characters. -/
def div20 : Node := .element "div" [] [.text "abcdefghij0123456789"]

/-- C4 counterexample: with the authors/venue slot already filled, a
`div` sibling whose normalised text has exactly 20 characters is
discarded (the abstract slot stays empty), contradicting the claim that
the 20-character boundary is accepted. -/
theorem claim4_counterexample :
    (cleanText (getTextN div20)).length = 20
    ∧ walkSiblings [div20] "J. Smith" = ("J. Smith", "") := by
  decide

/-- C4 amended: once the authors/venue candidate is set, a `div` sibling
is accepted as the abstract (stopping the walk) exactly when its
normalised text is strictly longer than 20 characters; text of length
20 or less — including exactly 20 — is discarded and the walk
continues. -/
theorem claim4_amended (attrs : List (String × String)) (cs rest : List Node)
    (authorsText : String) (hA : authorsText ≠ "") :
    ((cleanText (getTextN (Node.element "div" attrs cs))).length ≤ 20 →
      walkSiblings (Node.element "div" attrs cs :: rest) authorsText =
        walkSiblings rest authorsText)
    ∧ (20 < (cleanText (getTextN (Node.element "div" attrs cs))).length →
      walkSiblings (Node.element "div" attrs cs :: rest) authorsText =
        (authorsText, cleanText (getTextN (Node.element "div" attrs cs)))) := by
  constructor
  · intro hle
    simp only [walkSiblings, if_neg hA]
    rw [if_neg]
    rintro ⟨-, hgt⟩
    exact absurd hgt (not_lt.mpr hle)
  · intro hgt
    have hne : cleanText (getTextN (Node.element "div" attrs cs)) ≠ "" := by
      intro h
      rw [h] at hgt
      exact absurd hgt (by decide)
    simp only [walkSiblings, if_neg hA]
    rw [if_pos ⟨hne, hgt⟩]

/-- C4 witness: a 21-character block after the authors line is accepted
as the abstract. -/
theorem claim4_witness :
    walkSiblings [Node.element "div" [] [Node.text "abcdefghij0123456789X"]]
        "J. Smith"
      = ("J. Smith", "abcdefghij0123456789X") :=
  (claim4_amended [] [Node.text "abcdefghij0123456789X"] [] "J. Smith"
    (by decide)).2 (by decide)

/-- Every record built by `recordOfH3` carries the given category as its
single `categories` entry, and its `id` is recomputed from its own
`title` and `authors` fields. -/
theorem recordOfH3_fields (category : String) (h3 : Node) (sibs : List Node)
    (p : Paper) (h : recordOfH3 category h3 sibs = some p) :
    p.categories = [category]
    ∧ p.id = "scholar_" ++ getMd5 (p.title ++ String.join p.authors) := by
  unfold recordOfH3 at h
  cases hf : findFirst "a" h3 with
  | none => rw [hf] at h; exact absurd h (by simp)
  | some aTag =>
    rw [hf] at h
    simp only [Option.some.injEq] at h
    subst h
    exact ⟨rfl, rfl⟩

/-- Membership in `parseScholarEmail` comes from some heading's
`recordOfH3` under the document category. -/
theorem mem_parseScholarEmail {doc : Node} {p : Paper}
    (hp : p ∈ parseScholarEmail doc) :
    ∃ pr ∈ findH3sAux (childrenOf doc),
      recordOfH3 (resolveCategory doc) pr.1 pr.2 = some p := by
  simp only [parseScholarEmail, List.mem_filterMap] at hp
  obtain ⟨pr, hmem, hrec⟩ := hp
  exact ⟨pr, hmem, hrec⟩

/-- C10: a heading whose first hyperlink has no `href` attribute still
produces a record, and that record's `pdf` and `abs` fields are both
`None` (not URL strings), hence equal to each other. -/
theorem claim10_no_href (category : String) (h3 : Node) (sibs : List Node)
    (aTag : Node) (h1 : findFirst "a" h3 = some aTag)
    (h2 : attrGet aTag "href" = none) :
    ∃ p, recordOfH3 category h3 sibs = some p
      ∧ p.pdf = none ∧ p.abs = none ∧ p.pdf = p.abs := by
  unfold recordOfH3
  rw [h1]
  refine ⟨_, rfl, ?_, ?_, rfl⟩
  · exact h2
  · exact h2

/-- A heading whose link carries no `href`. -/
def h3NoHref : Node :=
  .element "h3" [] [.element "a" [] [.text "Linkless Title"]]

/-- The record produced for the `href`-less heading. -/
def paperNoHref : Paper :=
  { id := "scholar_914c63eb9ad9f2ed352e53b61eebf999"
    title := "Linkless Title"
    authors := []
    summary := "Title: Linkless Title\nAuthors: \nAbstract: Abstract not available."
    categories := ["Google Scholar"]
    pdf := none
    abs := none
    comment := "From Google Scholar Alert"
    source := "Google Scholar" }

/-- C10 witness: the concrete linkless-`href` heading produces a record
with `pdf = abs = None`. -/
theorem claim10_witness :
    recordOfH3 "Google Scholar" h3NoHref [] = some paperNoHref
    ∧ paperNoHref.pdf = none ∧ paperNoHref.abs = none
    ∧ paperNoHref.pdf = paperNoHref.abs := by
  obtain ⟨p, hp, h1, h2, h3⟩ := claim10_no_href "Google Scholar" h3NoHref []
    (.element "a" [] [.text "Linkless Title"]) rfl rfl
  have hc : recordOfH3 "Google Scholar" h3NoHref [] = some paperNoHref := by
    set_option maxRecDepth 40000 in decide
  rw [hc] at hp
  injection hp with hpp
  subst hpp
  exact ⟨hc, h1, h2, h3⟩

/-- C7: every extracted record's `categories` is the one-element list
holding the document category, and the bracketed linked footer term
`"[cost model]"` resolves to the category `"cost model"`, applied to
every record of that document. -/
theorem claim7_categories :
    (∀ doc p, p ∈ parseScholarEmail doc →
      p.categories = [resolveCategory doc])
    ∧ resolveCategory docC7 = "cost model" := by
  constructor
  · intro doc p hp
    obtain ⟨pr, -, hrec⟩ := mem_parseScholarEmail hp
    exact (recordOfH3_fields _ _ _ _ hrec).1
  · decide

/-- The record extracted from `docC7`. -/
def paperC7 : Paper :=
  { id := "scholar_b9ece18c950afbfa6b0fdbfa4ff731d3"
    title := "T"
    authors := []
    summary := "Title: T\nAuthors: \nAbstract: Abstract not available."
    categories := ["cost model"]
    pdf := some "u"
    abs := some "u"
    comment := "From Google Scholar Alert"
    source := "Google Scholar" }

/-- C7 witness: the record extracted from the `"[cost model]"` document
carries exactly `["cost model"]`. -/
theorem claim7_witness : paperC7.categories = ["cost model"] := by
  have h := claim7_categories.1 docC7 paperC7
    (by set_option maxRecDepth 40000 in decide)
  rwa [claim7_categories.2] at h

/-- Hex rendering yields two characters per byte. -/
theorem hexOfBytes_length (bs : List Nat) :
    (hexOfBytes bs).length = 2 * bs.length := by
  induction bs with
  | nil => rfl
  | cons b rest ih =>
    simp only [hexOfBytes, String.length, List.map_cons, List.flatten_cons] at *
    simp [ih]
    ring

/-- The MD5 digest always has 16 bytes. -/
theorem md5Bytes_length (msg : List Nat) : (md5Bytes msg).length = 16 := by
  simp [md5Bytes, le4]

/-- C8: every extracted record's `id` is the namespace prefix
`"scholar_"` followed by the MD5 hex digest (32 characters) of the
record's title concatenated with its authors joined without separators;
the digest is a pure function of that input. -/
theorem claim8_id :
    (∀ doc p, p ∈ parseScholarEmail doc →
      p.id = "scholar_" ++ getMd5 (p.title ++ String.join p.authors))
    ∧ (∀ s, (getMd5 s).length = 32) := by
  constructor
  · intro doc p hp
    obtain ⟨pr, -, hrec⟩ := mem_parseScholarEmail hp
    exact (recordOfH3_fields _ _ _ _ hrec).2
  · intro s
    rw [getMd5, hexOfBytes_length, md5Bytes_length]

/-- The record extracted from `docA`, with its id digest computed from
`"Deep Learning Survey" ++ "J. Smith" ++ "A. Lee"`. -/
def paperA : Paper :=
  { id := "scholar_e99779164d7497c03486ce2eb3b1479d"
    title := "Deep Learning Survey"
    authors := ["J. Smith", "A. Lee"]
    summary := abstractA
    categories := ["Google Scholar"]
    pdf := some "https://scholar.google.com/scholar_url?url=x"
    abs := some "https://scholar.google.com/scholar_url?url=x"
    comment := "From Google Scholar Alert"
    source := "Google Scholar" }

/-- C8 witness: the concrete record of `docA` has the prefixed digest of
its own title and joined authors as id. -/
theorem claim8_witness :
    paperA.id = "scholar_" ++ getMd5 (paperA.title ++ String.join paperA.authors) :=
  claim8_id.1 docA paperA (by set_option maxRecDepth 40000 in decide)

/-- C3 counterexample: in `docC3` the first marker-containing paragraph
has no hyperlink, yet the resolved category is taken from the second
marker-containing paragraph instead of falling back to the default
`"Google Scholar"`, so scanning does not stop at the first marker
paragraph. -/
theorem claim3_counterexample :
    resolveCategory docC3 = "machine learning"
    ∧ ("machine learning" : String) ≠ "Google Scholar" := by
  decide

/-- C3 amended: the scan stops at the first marker-containing paragraph
that yields a non-empty link text; a marker-containing paragraph with no
hyperlink or with empty (bracket-stripped) link text is skipped, so a
later marker-containing paragraph may still determine the category, and
only when no paragraph yields a non-empty text does the default
`"Google Scholar"` remain. -/
theorem claim3_amended (p : Node) (rest : List Node) :
    (markerIn p = false → categoryLoop (p :: rest) = categoryLoop rest)
    ∧ (markerIn p = true → findFirst "a" p = none →
        categoryLoop (p :: rest) = categoryLoop rest)
    ∧ (∀ aTag, markerIn p = true → findFirst "a" p = some aTag →
        catTextOf aTag = "" → categoryLoop (p :: rest) = categoryLoop rest)
    ∧ (∀ aTag, markerIn p = true → findFirst "a" p = some aTag →
        catTextOf aTag ≠ "" → categoryLoop (p :: rest) = catTextOf aTag)
    ∧ categoryLoop [] = "Google Scholar" := by
  refine ⟨fun h0 => ?_, fun h1 h2 => ?_, fun aTag h1 h2 h3 => ?_,
    fun aTag h1 h2 h3 => ?_, rfl⟩
  · simp [categoryLoop, h0]
  · simp [categoryLoop, h1, h2]
  · simp [categoryLoop, h1, h2, h3]
  · simp [categoryLoop, h1, h2, h3]

/-- The second paragraph of `docC3`: marker text plus a linked term. -/
def pMarkerLinked : Node :=
  .element "p" []
    [.text "Google 学术搜索发送此邮件，是因为您关注了 ",
     .element "a" [] [.text "machine learning"]]

/-- C3 witness: a marker paragraph with the linked term
`"machine learning"` settles the category at once. -/
theorem claim3_witness :
    categoryLoop [pMarkerLinked] = "machine learning" :=
  (claim3_amended pMarkerLinked []).2.2.2.1
    (.element "a" [] [.text "machine learning"]) (by decide) rfl (by decide)

/-- Setting one key leaves every other key's binding unchanged. -/
theorem dictGet_dictSet_ne (k k' : String) (v : JVal) (d : PDict)
    (h : k' ≠ k) : dictGet k' (dictSet k v d) = dictGet k' d := by
  induction d with
  | nil => simp [dictSet, dictGet, Ne.symm h]
  | cons hd tl ih =>
    obtain ⟨k₁, v₁⟩ := hd
    by_cases hk : k₁ = k
    · subst hk
      simp [dictSet, dictGet, Ne.symm h]
    · simp only [dictSet, if_neg hk, dictGet]
      by_cases hk2 : k₁ = k'
      · rw [if_pos hk2, if_pos hk2]
      · rw [if_neg hk2, if_neg hk2]
        exact ih

/-- A conditional in-place update of one key does not touch other keys. -/
theorem dictGet_ite_dictSet (c : Prop) [Decidable c] (key k : String)
    (v : JVal) (d : PDict) (h : k ≠ key) :
    dictGet k (if c then dictSet key v d else d) = dictGet k d := by
  split_ifs with hc
  · exact dictGet_dictSet_ne key k v d h
  · rfl

/-- A conditional two-way update of one key does not touch other keys. -/
theorem dictGet_ite_dictSet2 (c₁ c₂ : Prop) [Decidable c₁] [Decidable c₂]
    (key k : String) (v₁ v₂ : JVal) (d : PDict) (h : k ≠ key) :
    dictGet k
        (if c₁ then (if c₂ then dictSet key v₁ d else dictSet key v₂ d) else d)
      = dictGet k d := by
  split_ifs with hc1 hc2
  · exact dictGet_dictSet_ne key k v₁ d h
  · exact dictGet_dictSet_ne key k v₂ d h
  · rfl

/-- The paper dict of a freshly extracted record, before enrichment. -/
def paperDict5 : PDict :=
  [("title", .str "T"),
   ("summary", .str "Title: T\nAuthors: A\nAbstract: Abstract not available."),
   ("pdf", .str "https://scholar.google.com/scholar_url?url=redir"),
   ("abs", .str "https://scholar.google.com/scholar_url?url=redir"),
   ("comment", .str "From Google Scholar Alert")]

/-- A successful SerpApi best match with a resolved canonical link. -/
def respC5 : Option (List ScholarMatch) :=
  some [⟨some "A snippet.", some "Journal X, 2024", some "rid", some "https://publisher.example/p"⟩]

/-- C5 counterexample: after a successful enrichment the `pdf` and `abs`
fields still hold the original redirect URL (they are not replaced by
the resolved link), while two fields outside the Paper Record schema —
`url` and `scholar_enhanced` — are added to the record. -/
theorem claim5_counterexample :
    dictGet "pdf" (enhancePaper (some "key") respC5 paperDict5)
        = some (.str "https://scholar.google.com/scholar_url?url=redir")
    ∧ dictGet "abs" (enhancePaper (some "key") respC5 paperDict5)
        = some (.str "https://scholar.google.com/scholar_url?url=redir")
    ∧ dictGet "url" paperDict5 = none
    ∧ dictGet "url" (enhancePaper (some "key") respC5 paperDict5)
        = some (.str "https://publisher.example/p")
    ∧ dictGet "scholar_enhanced" paperDict5 = none
    ∧ dictGet "scholar_enhanced" (enhancePaper (some "key") respC5 paperDict5)
        = some (.bool true) := by
  decide

/-- C5 amended: the enrichment step may change only the keys `summary`
(overwritten when the placeholder is present or the new snippet is
longer), `comment` (appended to) and the keys it adds, `url` (the
resolved link) and `scholar_enhanced`; every other field of the record —
`pdf` and `abs` included — is unchanged. -/
theorem claim5_amended (apiKey : Option String)
    (response : Option (List ScholarMatch)) (paper : PDict) (k : String)
    (h1 : k ≠ "summary") (h2 : k ≠ "comment") (h3 : k ≠ "url")
    (h4 : k ≠ "scholar_enhanced") :
    dictGet k (enhancePaper apiKey response paper) = dictGet k paper := by
  cases apiKey with
  | none => rfl
  | some key =>
    unfold enhancePaper
    by_cases ht : dictGetStr "title" paper = ""
    · rw [if_pos ht]
    · rw [if_neg ht]
      cases response with
      | none => rfl
      | some l =>
        cases l with
        | nil => rfl
        | cons best t =>
          rw [dictGet_dictSet_ne _ _ _ _ h4,
            dictGet_ite_dictSet _ _ _ _ _ h3,
            dictGet_ite_dictSet2 _ _ _ _ _ _ _ h2,
            dictGet_ite_dictSet _ _ _ _ _ h1]

/-- C5 witness: the `pdf` field survives a successful enrichment. -/
theorem claim5_witness :
    dictGet "pdf" (enhancePaper (some "key") respC5 paperDict5)
      = dictGet "pdf" paperDict5 :=
  claim5_amended (some "key") respC5 paperDict5 "pdf"
    (by decide) (by decide) (by decide) (by decide)

/-! ## Splitting and stripping commute (groundwork for C6)

Python evaluates `authors_text.split('-')[0].strip()` before splitting
on commas, while the spec describes comma-splitting the raw hyphen
prefix; the per-segment `strip()` absorbs the difference.  The lemmas
below make that exact. -/

theorem pySplitChar_ne_nil (sep : Char) (l : List Char) :
    pySplitChar sep l ≠ [] := by
  cases l with
  | nil => simp [pySplitChar]
  | cons c rest =>
    by_cases hc : c = sep
    · simp [pySplitChar, hc]
    · simp only [pySplitChar, if_neg hc]
      cases pySplitChar sep rest <;> simp

/-- The first `split` piece is the prefix before the first separator. -/
theorem pySplitChar_headD (sep : Char) (l : List Char) :
    (pySplitChar sep l).headD [] = l.takeWhile (fun c => c ≠ sep) := by
  induction l with
  | nil => rfl
  | cons c rest ih =>
    by_cases hc : c = sep
    · subst hc
      simp [pySplitChar, List.takeWhile_cons]
    · simp only [pySplitChar, if_neg hc, List.takeWhile_cons, decide_eq_true hc]
      cases hs : pySplitChar sep rest with
      | nil => exact absurd hs (pySplitChar_ne_nil sep rest)
      | cons h t =>
        rw [hs] at ih
        simp only [List.headD_cons] at ih ⊢
        simp [hc, ih]

/-- Splitting a separator-free list yields a single piece. -/
theorem pySplitChar_of_not_mem (sep : Char) (l : List Char)
    (h : sep ∉ l) : pySplitChar sep l = [l] := by
  induction l with
  | nil => rfl
  | cons c rest ih =>
    have hc : c ≠ sep := fun hh => h (hh ▸ List.mem_cons_self c rest)
    have hr := ih (fun hh => h (List.mem_cons_of_mem c hh))
    simp [pySplitChar, if_neg hc, hr]
theorem dropWhile_eq_nil_of_all (l : List Char)
    (h : ∀ x ∈ l, wsChar x = true) : List.dropWhile wsChar l = [] := by
  induction l with
  | nil => rfl
  | cons c rest ih =>
    rw [List.dropWhile_cons_of_pos (h c (List.mem_cons_self c rest))]
    exact ih (fun x hx => h x (List.mem_cons_of_mem c hx))

theorem dropEndWS_cons_of_not_ws (c : Char) (l : List Char)
    (h : wsChar c = false) : dropEndWS (c :: l) = c :: dropEndWS l := by
  cases hd : dropEndWS l with
  | nil => simp [dropEndWS, hd, h]
  | cons r rs => simp [dropEndWS, hd]

theorem dropEndWS_cons_of_ne_nil (c : Char) (l : List Char)
    (h : dropEndWS l ≠ []) : dropEndWS (c :: l) = c :: dropEndWS l := by
  cases hd : dropEndWS l with
  | nil => exact absurd hd h
  | cons r rs => simp [dropEndWS, hd]

theorem dropEndWS_eq_nil_iff (l : List Char) :
    dropEndWS l = [] ↔ ∀ x ∈ l, wsChar x = true := by
  induction l with
  | nil => simp [dropEndWS]
  | cons c rest ih =>
    constructor
    · intro h
      cases hd : dropEndWS rest with
      | nil =>
        by_cases hc : wsChar c
        · intro x hx
          rcases List.mem_cons.mp hx with rfl | hx
          · exact hc
          · exact ih.mp hd x hx
        · rw [dropEndWS_cons_of_not_ws c rest
            (Bool.not_eq_true _ ▸ eq_false_of_ne_true hc), hd] at h
          cases h
      | cons r rs =>
        rw [dropEndWS_cons_of_ne_nil c rest (by simp [hd]), hd] at h
        cases h
    · intro h
      have hr : dropEndWS rest = [] :=
        ih.mpr (fun x hx => h x (List.mem_cons_of_mem c hx))
      simp [dropEndWS, hr, h c (List.mem_cons_self c rest)]

theorem dropWhile_idem (p : Char → Bool) (l : List Char) :
    List.dropWhile p (List.dropWhile p l) = List.dropWhile p l := by
  induction l with
  | nil => rfl
  | cons c rest ih =>
    by_cases hc : p c
    · rw [List.dropWhile_cons_of_pos hc, ih]
    · rw [List.dropWhile_cons_of_neg hc, List.dropWhile_cons_of_neg hc]

/-- Leading-whitespace removal commutes with trailing removal. -/
theorem dropWhile_dropEndWS_comm (l : List Char) :
    List.dropWhile wsChar (dropEndWS l) = dropEndWS (List.dropWhile wsChar l) := by
  induction l with
  | nil => rfl
  | cons c rest ih =>
    by_cases hc : wsChar c
    · cases hd : dropEndWS rest with
      | nil =>
        have hall := (dropEndWS_eq_nil_iff rest).mp hd
        have hnil : dropEndWS (c :: rest) = [] := by
          simp [dropEndWS, hd, hc]
        rw [hnil, List.dropWhile_cons_of_pos hc,
          dropWhile_eq_nil_of_all rest hall]
        rfl
      | cons r rs =>
        rw [dropEndWS_cons_of_ne_nil c rest (by simp [hd]),
          List.dropWhile_cons_of_pos hc, List.dropWhile_cons_of_pos hc, ih]
    · have hcf : wsChar c = false := Bool.not_eq_true _ ▸ eq_false_of_ne_true hc
      rw [dropEndWS_cons_of_not_ws c rest hcf,
        List.dropWhile_cons_of_neg hc, List.dropWhile_cons_of_neg hc,
        dropEndWS_cons_of_not_ws c rest hcf]

theorem dropEndWS_idem (l : List Char) :
    dropEndWS (dropEndWS l) = dropEndWS l := by
  induction l with
  | nil => rfl
  | cons c rest ih =>
    cases hd : dropEndWS rest with
    | nil =>
      by_cases hc : wsChar c
      · simp [dropEndWS, hd, hc]
      · simp [dropEndWS, hd, hc]
    | cons r rs =>
      have hne : dropEndWS rest ≠ [] := by simp [hd]
      have hne2 : dropEndWS (dropEndWS rest) ≠ [] := by rw [ih]; exact hne
      rw [dropEndWS_cons_of_ne_nil c rest hne,
        dropEndWS_cons_of_ne_nil c (dropEndWS rest) hne2, ih]

/-- `strip` of an already right-trimmed list equals `strip` of the
original. -/
theorem stripL_dropEndWS (l : List Char) :
    stripL (dropEndWS l) = stripL l := by
  unfold stripL
  rw [dropWhile_dropEndWS_comm, dropEndWS_idem]

theorem stripL_cons_of_ws (c : Char) (l : List Char) (h : wsChar c = true) :
    stripL (c :: l) = stripL l := by
  unfold stripL
  rw [List.dropWhile_cons_of_pos h]

theorem stripL_idem (l : List Char) : stripL (stripL l) = stripL l := by
  unfold stripL
  rw [dropWhile_dropEndWS_comm, dropEndWS_idem, dropWhile_idem]

/-- Modify the last piece of a non-empty piece list. -/
def modLast (f : List Char → List Char) : List (List Char) → List (List Char)
  | [] => []
  | [x] => [f x]
  | x :: y :: t => x :: modLast f (y :: t)

theorem map_modLast {α : Type} (f : List Char → α) (g : List Char → List Char)
    (hfg : ∀ x, f (g x) = f x) (l : List (List Char)) :
    (modLast g l).map f = l.map f := by
  induction l with
  | nil => rfl
  | cons x t ih =>
    cases t with
    | nil => simp [modLast, hfg]
    | cons y t2 => simp only [modLast, List.map_cons, ih]

/-- A single split piece means the separator is absent and the piece is
the whole list. -/
theorem pySplitChar_singleton (sep : Char) (l x : List Char)
    (h : pySplitChar sep l = [x]) : x = l ∧ sep ∉ l := by
  induction l generalizing x with
  | nil =>
    simp only [pySplitChar, List.cons.injEq, and_true] at h
    simp [← h]
  | cons c rest ih =>
    by_cases hc : c = sep
    · rw [pySplitChar, if_pos hc] at h
      simp only [List.cons.injEq] at h
      exact absurd h.2 (pySplitChar_ne_nil sep rest)
    · rw [pySplitChar, if_neg hc] at h
      cases hs : pySplitChar sep rest with
      | nil => exact absurd hs (pySplitChar_ne_nil sep rest)
      | cons h0 t0 =>
        rw [hs] at h
        simp only [List.cons.injEq] at h
        obtain ⟨hx, ht⟩ := h
        subst ht
        obtain ⟨h0r, hmem⟩ := ih h0 hs
        subst h0r
        subst hx
        refine ⟨rfl, ?_⟩
        intro hin
        rcases List.mem_cons.mp hin with heq | hin
        · exact hc heq.symm
        · exact hmem hin

/-- Right-trimming the input right-trims exactly the last split piece
(separators are not whitespace, so trailing whitespace sits in the last
piece). -/
theorem pySplitChar_dropEndWS (sep : Char) (hsep : wsChar sep = false)
    (l : List Char) :
    pySplitChar sep (dropEndWS l) = modLast dropEndWS (pySplitChar sep l) := by
  induction l with
  | nil => rfl
  | cons c rest ih =>
    by_cases hc : c = sep
    · rw [hc, dropEndWS_cons_of_not_ws sep rest hsep]
      rw [pySplitChar, if_pos rfl, pySplitChar, if_pos rfl]
      rw [ih]
      cases hs : pySplitChar sep rest with
      | nil => exact absurd hs (pySplitChar_ne_nil sep rest)
      | cons h t => rfl
    · cases hd : dropEndWS rest with
      | nil =>
        have hall := (dropEndWS_eq_nil_iff rest).mp hd
        have hrest : pySplitChar sep rest = [rest] :=
          pySplitChar_of_not_mem sep rest
            (fun hmem => by rw [hall sep hmem] at hsep; cases hsep)
        by_cases hw : wsChar c
        · have hnil : dropEndWS (c :: rest) = [] := by
            simp [dropEndWS, hd, hw]
          have hcall : ∀ x ∈ c :: rest, wsChar x = true := by
            intro x hx
            rcases List.mem_cons.mp hx with rfl | hx
            · exact hw
            · exact hall x hx
          rw [hnil, pySplitChar, pySplitChar, if_neg hc, hrest]
          simp only [modLast]
          rw [(dropEndWS_eq_nil_iff (c :: rest)).mpr hcall]
        · have hone : dropEndWS (c :: rest) = [c] := by
            simp [dropEndWS, hd, hw]
          have hl : pySplitChar sep [c] = [[c]] := by
            simp [pySplitChar, if_neg hc]
          have hr2 : pySplitChar sep (c :: rest) = [c :: rest] := by
            simp [pySplitChar, if_neg hc, hrest]
          rw [hone, hl, hr2]
          simp only [modLast]
          rw [hone]
      | cons r rs =>
        have hne : dropEndWS rest ≠ [] := by simp [hd]
        rw [dropEndWS_cons_of_ne_nil c rest hne,
          pySplitChar, if_neg hc, pySplitChar, if_neg hc]
        rw [ih]
        cases hs : pySplitChar sep rest with
        | nil => exact absurd hs (pySplitChar_ne_nil sep rest)
        | cons h t =>
          cases t with
          | nil =>
            obtain ⟨hr, -⟩ := pySplitChar_singleton sep rest h hs
            subst hr
            simp only [modLast]
            rw [dropEndWS_cons_of_ne_nil c h hne]
          | cons h2 t2 => simp [modLast]

/-- Left-trimming the input does not change the stripped split pieces. -/
theorem pySplitChar_dropWhileWS (sep : Char) (hsep : wsChar sep = false)
    (l : List Char) :
    (pySplitChar sep (List.dropWhile wsChar l)).map (fun x => stripL x)
      = (pySplitChar sep l).map (fun x => stripL x) := by
  induction l with
  | nil => rfl
  | cons c rest ih =>
    by_cases hw : wsChar c
    · have hc : ¬c = sep := fun h => by rw [h, hsep] at hw; cases hw
      cases hs : pySplitChar sep rest with
      | nil => exact absurd hs (pySplitChar_ne_nil sep rest)
      | cons h t =>
        have hcr : pySplitChar sep (c :: rest) = (c :: h) :: t := by
          simp [pySplitChar, if_neg hc, hs]
        rw [List.dropWhile_cons_of_pos hw, ih, hs, hcr]
        simp only [List.map_cons]
        rw [stripL_cons_of_ws c h hw]
    · rw [List.dropWhile_cons_of_neg hw]

/-- Stripping the whole line before splitting changes nothing once every
piece is stripped: the per-segment `strip()` absorbs the outer one. -/
theorem map_stripL_pySplit_stripL (sep : Char) (hsep : wsChar sep = false)
    (l : List Char) :
    (pySplitChar sep (stripL l)).map (fun x => stripL x)
      = (pySplitChar sep l).map (fun x => stripL x) := by
  have h1 : stripL l = dropEndWS (List.dropWhile wsChar l) := rfl
  rw [h1, pySplitChar_dropEndWS sep hsep,
    map_modLast (fun x => stripL x) dropEndWS stripL_dropEndWS,
    pySplitChar_dropWhileWS sep hsep]

theorem pyStrip_idem (s : String) : pyStrip (pyStrip s) = pyStrip s := by
  unfold pyStrip
  exact congrArg String.mk (stripL_idem s.data)

theorem takeWhile_ne_of_not_mem (sep : Char) (l : List Char) (h : sep ∉ l) :
    l.takeWhile (fun c => c ≠ sep) = l := by
  induction l with
  | nil => rfl
  | cons c rest ih =>
    have hc : c ≠ sep := fun hh => h (hh ▸ List.mem_cons_self c rest)
    rw [List.takeWhile_cons_of_pos (by simpa using hc),
      ih (fun hh => h (List.mem_cons_of_mem c hh))]

/-- C6: the extracted author sequence equals the comma-split of the
portion of the authors/venue line before the first hyphen (the whole
line when no hyphen occurs), each segment stripped, empty segments
discarded in order; consequently no author entry is empty or
whitespace-only (each entry is its own non-empty `strip`). -/
theorem claim6_author_split (s : String) :
    authorList s =
      ((pySplitChar ',' (s.data.takeWhile (fun c => c ≠ '-'))).map
        (fun seg => pyStrip ⟨seg⟩)).filter (fun a => a ≠ "")
    ∧ ∀ a ∈ authorList s, a ≠ "" ∧ pyStrip a = a := by
  have hmapmk : ∀ m : List Char,
      ((pySplitChar ',' m).map fun seg => pyStrip ⟨seg⟩)
        = ((pySplitChar ',' m).map (fun x => stripL x)).map
            (fun d : List Char => (⟨d⟩ : String)) := by
    intro m
    rw [List.map_map]
    rfl
  constructor
  · by_cases hm : '-' ∈ s.data
    · simp only [authorList, if_pos hm]
      have hdata : (pyStrip ⟨(pySplitChar '-' s.data).headD []⟩).data
          = stripL ((pySplitChar '-' s.data).headD []) := rfl
      rw [hdata, hmapmk, hmapmk, pySplitChar_headD,
        map_stripL_pySplit_stripL ',' (by decide)]
    · simp only [authorList, if_neg hm]
      rw [takeWhile_ne_of_not_mem '-' s.data hm]
  · intro a ha
    simp only [authorList] at ha
    rw [List.mem_filter] at ha
    obtain ⟨hmem, hne⟩ := ha
    refine ⟨of_decide_eq_true hne, ?_⟩
    rw [List.mem_map] at hmem
    obtain ⟨seg, -, hseg⟩ := hmem
    rw [← hseg, pyStrip_idem]

/-- C6 witness: a concrete extracted author entry is non-empty and
already stripped. -/
theorem claim6_witness :
    ("J. Smith" : String) ≠ "" ∧ pyStrip "J. Smith" = "J. Smith" :=
  (claim6_author_split "J. Smith, A. Lee - Journal of AI, 2024 - Elsevier").2
    "J. Smith" (by decide)

/-! ## Line structure of the sink append (groundwork for C9) -/

theorem foldl_append_data (l : List String) (acc : String) :
    (l.foldl (fun r s => r ++ s) acc).data
      = acc.data ++ (l.map String.data).flatten := by
  induction l generalizing acc with
  | nil => simp
  | cons s t ih =>
    simp only [List.foldl_cons, List.map_cons, List.flatten_cons]
    rw [ih (acc ++ s), String.data_append, List.append_assoc]

theorem join_data (l : List String) :
    (String.join l).data = (l.map String.data).flatten := by
  rw [String.join, foldl_append_data]
  rfl

/-- Splitting after a separator-free prefix peels off that prefix. -/
theorem pySplitChar_append_cons (sep : Char) (p l : List Char)
    (hp : sep ∉ p) :
    pySplitChar sep (p ++ sep :: l) = p :: pySplitChar sep l := by
  induction p with
  | nil => simp [pySplitChar]
  | cons c cp ih =>
    have hc : ¬c = sep := fun hh => hp (hh ▸ List.mem_cons_self c cp)
    have hr := ih (fun hh => hp (List.mem_cons_of_mem c hh))
    simp [pySplitChar, if_neg hc, hr]

/-- Splitting a concatenation of separator-terminated separator-free
lines recovers exactly the lines (plus the empty piece after the final
separator). -/
theorem pySplitChar_lines (sep : Char) (pieces : List (List Char))
    (h : ∀ x ∈ pieces, sep ∉ x) :
    pySplitChar sep ((pieces.map (fun x => x ++ [sep])).flatten)
      = pieces ++ [[]] := by
  induction pieces with
  | nil => rfl
  | cons x t ih =>
    simp only [List.map_cons, List.flatten_cons, List.append_assoc,
      List.singleton_append]
    rw [pySplitChar_append_cons sep x _ (h x (List.mem_cons_self x t)),
      ih (fun y hy => h y (List.mem_cons_of_mem x hy))]
    rfl

theorem hexLower_ne_nl (n : Nat) : hexLower n ≠ '\n' := by
  have hall : ∀ c ∈ hexChars, c ≠ '\n' := by decide
  unfold hexLower
  cases hg : hexChars.get? n with
  | none =>
    rw [List.getD_eq_getElem?_getD, ← List.get?_eq_getElem?, hg]
    decide
  | some c =>
    rw [List.getD_eq_getElem?_getD, ← List.get?_eq_getElem?, hg]
    exact hall c (List.get?_mem hg)

theorem jsonEscapeChar_ne_nl (c : Char) : '\n' ∉ jsonEscapeChar c := by
  unfold jsonEscapeChar
  split_ifs with h1 h2 h3 h4 h5 h6 h7 h8 <;>
    simp only [List.mem_cons, List.not_mem_nil, or_false] <;>
    push_neg
  · exact ⟨by decide, by decide⟩
  · exact ⟨by decide, by decide⟩
  · exact ⟨by decide, by decide⟩
  · exact ⟨by decide, by decide⟩
  · exact ⟨by decide, by decide⟩
  · exact ⟨by decide, by decide⟩
  · exact ⟨by decide, by decide⟩
  · exact ⟨by decide, by decide, by decide, by decide,
      Ne.symm (hexLower_ne_nl _), Ne.symm (hexLower_ne_nl _)⟩
  · exact fun hh => h5 hh.symm

theorem jsonStrData_ne_nl (s : String) : '\n' ∉ jsonStrData s := by
  unfold jsonStrData
  intro h
  rcases List.mem_cons.mp h with h | h
  · cases h
  · rcases List.mem_append.mp h with h | h
    · rw [List.mem_flatMap] at h
      obtain ⟨c, -, hc⟩ := h
      exact jsonEscapeChar_ne_nl c hc
    · simp at h

theorem not_mem_intercalate (c : Char) (sep : List Char)
    (l : List (List Char)) (hsep : c ∉ sep) (hl : ∀ x ∈ l, c ∉ x) :
    c ∉ List.intercalate sep l := by
  induction l with
  | nil => simp [List.intercalate]
  | cons x t ih =>
    cases t with
    | nil =>
      simp only [List.intercalate, List.intersperse_singleton,
        List.flatten_cons, List.flatten_nil, List.append_nil]
      exact hl x (List.mem_cons_self x [])
    | cons y t2 =>
      intro h
      simp only [List.intercalate, List.intersperse_cons₂,
        List.flatten_cons] at h
      rcases List.mem_append.mp h with h | h
      · exact hl x (List.mem_cons_self x _) h
      · rcases List.mem_append.mp h with h | h
        · exact hsep h
        · exact ih (fun z hz => hl z (List.mem_cons_of_mem x hz))
            (by simpa [List.intercalate] using h)

theorem jsonListData_ne_nl (xs : List String) : '\n' ∉ jsonListData xs := by
  unfold jsonListData
  intro h
  rcases List.mem_cons.mp h with h | h
  · cases h
  · rcases List.mem_append.mp h with h | h
    · refine not_mem_intercalate '\n' [',', ' '] (xs.map jsonStrData)
        (by decide) ?_ h
      intro x hx
      rw [List.mem_map] at hx
      obtain ⟨s, -, hs⟩ := hx
      exact hs ▸ jsonStrData_ne_nl s
    · simp at h

theorem jsonOptData_ne_nl (o : Option String) : '\n' ∉ jsonOptData o := by
  cases o with
  | none => simp [jsonOptData]
  | some s => exact jsonStrData_ne_nl s

theorem jsonPair_ne_nl (key : String) (v : List Char) (hv : '\n' ∉ v) :
    '\n' ∉ jsonPair key v := by
  unfold jsonPair
  intro h
  rcases List.mem_append.mp h with h | h
  · exact jsonStrData_ne_nl key h
  · rcases List.mem_cons.mp h with h | h
    · cases h
    · rcases List.mem_cons.mp h with h | h
      · cases h
      · exact hv h

/-- A serialised record occupies a single line: its JSON text contains
no newline character. -/
theorem serializePaper_ne_nl (p : Paper) :
    '\n' ∉ (serializePaper p).data := by
  unfold serializePaper
  intro h
  rcases List.mem_cons.mp h with h | h
  · cases h
  · rcases List.mem_append.mp h with h | h
    · refine not_mem_intercalate '\n' [',', ' '] _ (by decide) ?_ h
      intro x hx
      simp only [List.mem_cons, List.not_mem_nil, or_false] at hx
      rcases hx with rfl | rfl | rfl | rfl | rfl | rfl | rfl | rfl | rfl
      · exact jsonPair_ne_nl _ _ (jsonStrData_ne_nl _)
      · exact jsonPair_ne_nl _ _ (jsonStrData_ne_nl _)
      · exact jsonPair_ne_nl _ _ (jsonListData_ne_nl _)
      · exact jsonPair_ne_nl _ _ (jsonStrData_ne_nl _)
      · exact jsonPair_ne_nl _ _ (jsonListData_ne_nl _)
      · exact jsonPair_ne_nl _ _ (jsonOptData_ne_nl _)
      · exact jsonPair_ne_nl _ _ (jsonOptData_ne_nl _)
      · exact jsonPair_ne_nl _ _ (jsonStrData_ne_nl _)
      · exact jsonPair_ne_nl _ _ (jsonStrData_ne_nl _)
    · simp at h

/-- The characters appended after the existing content: the serialised
records, each followed by one newline. -/
def recordLines (papers : List Paper) : List Char :=
  (papers.map fun p => (serializePaper p).data ++ ['\n']).flatten

theorem appendRecords_data (existing : String) (papers : List Paper) :
    (appendRecords existing papers).data =
      existing.data ++ (if startNewline existing then ['\n'] else [])
        ++ recordLines papers := by
  unfold appendRecords recordLines
  rw [String.data_append, String.data_append, join_data, List.map_map]
  have h1 : (fun s => String.data s) ∘ (fun p => serializePaper p ++ "\n")
      = fun p => (serializePaper p).data ++ ['\n'] := by
    funext p
    exact String.data_append (serializePaper p) "\n"
  rw [h1]
  cases hs : startNewline existing <;> rfl

/-- C9: appending a batch preserves the existing sink content; exactly
one separating newline is inserted when the existing content is
non-empty and does not end with a newline, and none otherwise; and the
appended region consists of exactly one newline-terminated JSON line per
record (splitting it on newlines recovers the serialised records, each
newline-free). -/
theorem claim9_sink_append (existing : String) (papers : List Paper) :
    (∃ tail, (appendRecords existing papers).data = existing.data ++ tail)
    ∧ (existing.data ≠ [] → existing.data.getLast? ≠ some '\n' →
        (appendRecords existing papers).data =
          existing.data ++ '\n' :: recordLines papers)
    ∧ (existing.data.getLast? = some '\n' ∨ existing.data = [] →
        (appendRecords existing papers).data =
          existing.data ++ recordLines papers)
    ∧ (∀ p ∈ papers, '\n' ∉ (serializePaper p).data)
    ∧ pySplitChar '\n' (recordLines papers)
        = (papers.map fun p => (serializePaper p).data) ++ [[]] := by
  refine ⟨⟨_, by rw [appendRecords_data, List.append_assoc]⟩, ?_, ?_, ?_, ?_⟩
  · intro hne hlast
    rw [appendRecords_data]
    have hs : startNewline existing = true := by
      unfold startNewline
      cases hg : existing.data.getLast? with
      | none =>
        exact absurd (List.getLast?_eq_none_iff.mp hg) hne
      | some c =>
        have hc : c ≠ '\n' := fun hh => hlast (hh ▸ hg)
        simp [hc]
    rw [hs, List.append_assoc]
    rfl
  · intro hcase
    rw [appendRecords_data]
    have hs : startNewline existing = false := by
      unfold startNewline
      rcases hcase with hlast | hnil
      · rw [hlast]
        simp
      · rw [hnil]
        rfl
    rw [hs]
    simp
  · exact fun p _ => serializePaper_ne_nl p
  · unfold recordLines
    have hm : (papers.map fun p => (serializePaper p).data ++ ['\n'])
        = (papers.map fun p => (serializePaper p).data).map
            (fun x => x ++ ['\n']) := by
      rw [List.map_map]
      rfl
    rw [hm, pySplitChar_lines '\n' _ ?_]
    intro x hx
    rw [List.mem_map] at hx
    obtain ⟨p, -, hp⟩ := hx
    exact hp ▸ serializePaper_ne_nl p

/-- A minimal record used to exercise the sink append. -/
def paperW : Paper :=
  { id := "scholar_x", title := "T", authors := ["A"], summary := "S",
    categories := ["Google Scholar"], pdf := some "u", abs := some "u",
    comment := "From Google Scholar Alert", source := "Google Scholar" }

/-- C9 witness: appending one record to a file holding `"abc"` (no
trailing newline) inserts exactly one separating newline. -/
theorem claim9_witness :
    (appendRecords "abc" [paperW]).data =
      "abc".data ++ '\n' :: recordLines [paperW] :=
  (claim9_sink_append "abc" [paperW]).2.1 (by decide) (by decide)

end Scholar
